import Mathlib

/-!
Verification of the labeled seq2seq data pipeline in
`train_parallel_labeled_corpora.py` (repository Lextal/YATS2S).

The pipeline code (vocabulary loading, line encoding, joined-example
construction, batching) is embedded shallowly: files are lists of line
strings, Python dicts are association lists in insertion order where a
later entry for the same key shadows an earlier one, generators are
lists, and errors (Python exceptions) are `Option` failures.
-/

/-- Lookup in a Python-style dict represented as an association list in
insertion order: a later entry for the same key wins, as with repeated
`d[k] = v` assignments. -/
def dictGet [DecidableEq α] : List (α × β) → α → Option β
  | [], _ => none
  | (k', v) :: rest, k =>
    match dictGet rest k with
    | some v' => some v'
    | none => if k = k' then some v else none

/-- Python's `line.replace("\n", "")`: every newline character removed. -/
def stripNewlines (line : String) : String :=
  String.mk (line.data.filter (fun c => c ≠ '\n'))

/-- Helper for `splitFields`: accumulates the current run of non-whitespace
characters (reversed) and emits a field at each whitespace boundary. -/
def splitWsAux : List Char → List Char → List String
  | [], cur => if cur = [] then [] else [String.mk cur.reverse]
  | c :: cs, cur =>
    if c.isWhitespace then
      if cur = [] then splitWsAux cs []
      else String.mk cur.reverse :: splitWsAux cs []
    else splitWsAux cs (c :: cur)

/-- Python's `line.split()`: split on runs of whitespace, no empty fields. -/
def splitFields (line : String) : List String :=
  splitWsAux line.data []

/-- One line of `load_vocab`'s loop body: `token, freq = line.split()`
succeeds exactly when the line has two whitespace-separated fields, and
the token (first field) is kept. Any other field count raises, modelled
as `none`. -/
def parseVocabLine (line : String) : Option String :=
  match splitFields line with
  | [token, _freq] => some token
  | _ => none

/-- The `for line in fin` loop of `load_vocab`: strips newlines and parses
each line in order, failing at the first malformed line. -/
def parseVocabLines : List String → Option (List String)
  | [] => some []
  | line :: rest =>
    match parseVocabLine (stripNewlines line) with
    | none => none
    | some token => (parseVocabLines rest).map (fun ts => token :: ts)

/-- The dict comprehension `{t: i + ids_bias for i, t in enumerate(tokens)}`. -/
def t2iList (tokens : List String) (ids_bias : Nat) : List (String × Nat) :=
  tokens.enum.map (fun p => (p.2, p.1 + ids_bias))

/-- The dict comprehension `{i + ids_bias: t for i, t in enumerate(tokens)}`. -/
def i2tList (tokens : List String) (ids_bias : Nat) : List (Nat × String) :=
  tokens.enum.map (fun p => (p.1 + ids_bias, p.2))

/-- `load_vocab(filepath, ids_bias)`: the file is given as its list of
lines; returns the `(token2id, id2token)` pair, or `none` when a line
fails to parse. -/
def load_vocab (fileLines : List String) (ids_bias : Nat) :
    Option (List (String × Nat) × List (Nat × String)) :=
  match parseVocabLines fileLines with
  | none => none
  | some tokens => some (t2iList tokens ids_bias, i2tList tokens ids_bias)

/-- The closure returned by `vocab_encoder_wrapper(vocab, unk_id)`:
`list(map(lambda t: vocab.get(t, unk_id), line))`, generic in the element
type of the iterable `line`. -/
def line_ecoder_fn [DecidableEq α] (vocab : List (α × Nat)) (unk_id : Nat)
    (line : List α) : List Nat :=
  line.map (fun t => (dictGet vocab t).getD unk_id)

/-- Iterating a Python `str` yields its characters as one-character
strings; this is the token sequence `line_ecoder_fn` sees when handed a
raw line string. -/
def chars_of (line : String) : List String :=
  line.data.map (fun c => String.mk [c])

/-- `vocab_encoder_wrapper(vocab)` applied to a raw line string, as wired
in the pipeline: the map runs character by character with unknown id 2. -/
def encode_line (vocab : List (String × Nat)) (unk_id : Nat) (line : String) :
    List Nat :=
  line_ecoder_fn vocab unk_id (chars_of line)

/-- The generator from `open_file_wrapper(proc_fn)`: for each file line,
strip newlines and yield `proc_fn(line)`. -/
def open_file_fn (proc_fn : String → List Nat) (fileLines : List String) :
    List (List Nat) :=
  fileLines.map (fun line => proc_fn (stripNewlines line))

/-- The `label_vocab = {"0": 2, "1": 3}` fixed mapping from `main`. -/
def label_vocab : List (String × Nat) := [("0", 2), ("1", 3)]

/-- The joined example `batch_row[0] + [join_id] + batch_row[1]` built in
`labeled_data_generator`'s loop. -/
def joined_example (source : List Nat) (join_id : Nat) (target : List Nat) :
    List Nat :=
  source ++ [join_id] ++ target

/-- Modelled from the spec: the padding constant of `time_major_batch`
(`seq2seq.batch_utils`, not in the repository snapshot); the spec calls it
"a known constant (conventionally 0 or an id reserved for padding)". -/
def PAD_ID : Nat := 0

/-- Maximum true length among the sequences of a chunk. -/
def maxLen (seqs : List (List Nat)) : Nat :=
  (seqs.map List.length).foldr max 0

/-- Modelled from the spec: `time_major_batch` from `seq2seq.batch_utils`
is imported but its source is not under src/. Per spec §4.5 it returns
`(ids_2d, lengths_1d)` with `ids_2d` of shape
[max_length_in_chunk, chunk_size] (time-major) padded with the constant
beyond each sequence's true length, and `lengths_1d` holding the true
lengths. Row `t` holds, for each sequence, its element at time `t` or the
pad constant. -/
def time_major_batch (seqs : List (List Nat)) : List (List Nat) × List Nat :=
  ((List.range (maxLen seqs)).map
      (fun t => seqs.map (fun s => s.getD t PAD_ID)),
    seqs.map List.length)

/-- Modelled from the spec: `merge_generators` from
`rstools.utils.batch_utils` is imported but not under src/. Per spec §4.4
it zips the three per-line streams positionally, terminating when the
shortest is exhausted. -/
def merge_generators (g1 g2 g3 : List (List Nat)) :
    List (List Nat × List Nat × List Nat) :=
  g1.zip (g2.zip g3)

/-- One per-line stream of `labeled_data_generator`: the file's lines run
through `open_file_wrapper(vocab_encoder_wrapper(vocab))` (unknown id 2,
the default). -/
def fileStream (vocab : List (String × Nat)) (fileLines : List String) :
    List (List Nat) :=
  open_file_fn (encode_line vocab 2) fileLines

/-- The merged (source, target, label) row stream feeding the pipeline. -/
def labeled_rows (text_vocab label_vocab' : List (String × Nat))
    (sourceLines targetLines labelLines : List String) :
    List (List Nat × List Nat × List Nat) :=
  merge_generators (fileStream text_vocab sourceLines)
    (fileStream text_vocab targetLines)
    (fileStream label_vocab' labelLines)

/-- A yielded batch tuple `(text, text_len, label, label_len)`. -/
abbrev Batch4 := List (List Nat) × List Nat × List (List Nat) × List Nat

/-- One iteration of `labeled_data_generator`'s loop body: append the
joined text and label to the accumulators; when the text accumulator
reaches `batch_size`, emit a batch and clear both accumulators. The state
is `(text_batch, label_batch, emitted batches)`. -/
def labeled_step (batch_size join_id : Nat)
    (st : List (List Nat) × List (List Nat) × List Batch4)
    (row : List Nat × List Nat × List Nat) :
    List (List Nat) × List (List Nat) × List Batch4 :=
  let text := joined_example row.1 join_id row.2.1
  let label := row.2.2
  let text_batch := st.1 ++ [text]
  let label_batch := st.2.1 ++ [label]
  if batch_size ≤ text_batch.length then
    let tm := time_major_batch text_batch
    let lm := time_major_batch label_batch
    ([], [], st.2.2 ++ [(tm.1, tm.2, lm.1, lm.2)])
  else
    (text_batch, label_batch, st.2.2)

/-- The batches emitted when the loop of `labeled_data_generator` runs
over a given row stream. -/
def emitted_batches (rows : List (List Nat × List Nat × List Nat))
    (join_id batch_size : Nat) : List Batch4 :=
  (rows.foldl (labeled_step batch_size join_id) ([], [], [])).2.2

/-- `labeled_data_generator(data_dir, text_vocab, label_vocab, join_id,
prefix, batch_size)` with the three files given as their line lists: the
full sequence of yielded batch tuples. -/
def labeled_data_generator (text_vocab label_vocab' : List (String × Nat))
    (sourceLines targetLines labelLines : List String)
    (join_id batch_size : Nat) : List Batch4 :=
  emitted_batches
    (labeled_rows text_vocab label_vocab' sourceLines targetLines labelLines)
    join_id batch_size

/-- A well-formed `"token freq"` line parses exactly when it has two
whitespace-separated fields. -/
lemma parseVocabLine_isSome (line : String) :
    (parseVocabLine line).isSome ↔ (splitFields line).length = 2 := by
  unfold parseVocabLine
  rcases hs : splitFields line with _ | ⟨a, _ | ⟨b, _ | ⟨c, rest⟩⟩⟩ <;> simp

/-- The vocabulary loop succeeds exactly when every line parses. -/
lemma parseVocabLines_isSome (lines : List String) :
    (parseVocabLines lines).isSome ↔
      ∀ line ∈ lines, (parseVocabLine (stripNewlines line)).isSome := by
  induction lines with
  | nil => simp [parseVocabLines]
  | cons l ls ih =>
    unfold parseVocabLines
    rcases h : parseVocabLine (stripNewlines l) with _ | tok <;> simp [h, ih]

/-- C3: for every source id-sequence `S`, target id-sequence `T` and join
id `J`, the joined example built by the labeled-data pipeline equals `S`
followed by the single element `J` followed by `T`, and its length equals
`len(S) + 1 + len(T)`. -/
theorem joined_example_spec (S T : List Nat) (J : Nat) :
    joined_example S J T = S ++ [J] ++ T ∧
    (joined_example S J T).length = S.length + 1 + T.length := by
  refine ⟨rfl, ?_⟩
  simp [joined_example]
  omega

/-- C5: for every vocabulary mapping, unknown id and input token
sequence, the line encoder maps each token present in the vocabulary to
its assigned id and each absent token to the unknown id, preserving
order and length (it is a pure function, so there are no side effects). -/
theorem line_ecoder_spec {α : Type} [DecidableEq α] (vocab : List (α × Nat))
    (unk_id : Nat) (toks : List α) (i : Nat) (t : α)
    (h : toks[i]? = some t) :
    (line_ecoder_fn vocab unk_id toks).length = toks.length ∧
    (line_ecoder_fn vocab unk_id toks)[i]?
      = some ((dictGet vocab t).getD unk_id) ∧
    (∀ id, dictGet vocab t = some id →
      (line_ecoder_fn vocab unk_id toks)[i]? = some id) ∧
    (dictGet vocab t = none →
      (line_ecoder_fn vocab unk_id toks)[i]? = some unk_id) := by
  refine ⟨by simp [line_ecoder_fn], ?_, ?_, ?_⟩
  · simp [line_ecoder_fn, List.getElem?_map, h]
  · intro id hid
    simp [line_ecoder_fn, List.getElem?_map, h, hid]
  · intro hnone
    simp [line_ecoder_fn, List.getElem?_map, h, hnone]

theorem line_ecoder_spec_witness :
    (["the", "dog"][1]? = some "dog") ∧
    ((line_ecoder_fn [("the", 4), ("cat", 5)] 2 ["the", "dog"]).length = 2 ∧
      (line_ecoder_fn [("the", 4), ("cat", 5)] 2 ["the", "dog"])[1]?
        = some ((dictGet [("the", 4), ("cat", 5)] "dog").getD 2) ∧
      (∀ id, dictGet [("the", 4), ("cat", 5)] "dog" = some id →
        (line_ecoder_fn [("the", 4), ("cat", 5)] 2 ["the", "dog"])[1]?
          = some id) ∧
      (dictGet [("the", 4), ("cat", 5)] "dog" = none →
        (line_ecoder_fn [("the", 4), ("cat", 5)] 2 ["the", "dog"])[1]?
          = some 2)) :=
  ⟨by decide, line_ecoder_spec [("the", 4), ("cat", 5)] 2 ["the", "dog"] 1
    "dog" (by decide)⟩

/-- C9: each raw file line, after newline removal, goes straight to the
encoder, which maps over the string character by character: a line of
`L` characters encodes to exactly `L` ids, one per character (spaces
included), each looked up in the vocabulary with unknown id 2. -/
theorem pipeline_char_encoding (vocab : List (String × Nat))
    (fileLines : List String) (i : Nat) (line : String)
    (h : fileLines[i]? = some line) :
    (open_file_fn (encode_line vocab 2) fileLines)[i]?
      = some (encode_line vocab 2 (stripNewlines line)) ∧
    (encode_line vocab 2 (stripNewlines line)).length
      = (stripNewlines line).data.length ∧
    ∀ (j : Nat) (c : Char), (stripNewlines line).data[j]? = some c →
      (encode_line vocab 2 (stripNewlines line))[j]?
        = some ((dictGet vocab (String.mk [c])).getD 2) := by
  refine ⟨?_, by simp [encode_line, line_ecoder_fn, chars_of], ?_⟩
  · simp [open_file_fn, List.getElem?_map, h]
  · intro j c hc
    simp [encode_line, line_ecoder_fn, chars_of, List.getElem?_map, hc]

theorem pipeline_char_encoding_witness :
    (["a b"][0]? = some "a b") ∧
    ((open_file_fn (encode_line [("a", 4)] 2) ["a b"])[0]?
        = some (encode_line [("a", 4)] 2 (stripNewlines "a b")) ∧
      (encode_line [("a", 4)] 2 (stripNewlines "a b")).length
        = (stripNewlines "a b").data.length ∧
      ∀ (j : Nat) (c : Char), (stripNewlines "a b").data[j]? = some c →
        (encode_line [("a", 4)] 2 (stripNewlines "a b"))[j]?
          = some ((dictGet [("a", 4)] (String.mk [c])).getD 2)) :=
  ⟨by decide, pipeline_char_encoding [("a", 4)] ["a b"] 0 "a b" (by decide)⟩

/-- C10: because `label_vocab = {"0": 2, "1": 3}` and the encoder's
default unknown id is 2, every label character other than `'0'` and `'1'`
encodes to id 2 — exactly the id of the label class `"0"` — so an
out-of-vocabulary label is indistinguishable from class `"0"`. -/
theorem label_unknown_collision (s : String) (i : Nat) (c : Char)
    (h1 : s.data[i]? = some c) (h2 : c ≠ '0') (h3 : c ≠ '1') :
    (encode_line label_vocab 2 s)[i]? = some 2 ∧
    encode_line label_vocab 2 "0" = [2] := by
  have h0 : String.mk [c] ≠ "0" := by
    intro he
    exact h2 (by simpa using congrArg String.data he)
  have h1' : String.mk [c] ≠ "1" := by
    intro he
    exact h3 (by simpa using congrArg String.data he)
  have hk : dictGet label_vocab (String.mk [c]) = none := by
    simp [label_vocab, dictGet, h0, h1']
  refine ⟨?_, by decide⟩
  simp [encode_line, line_ecoder_fn, chars_of, List.getElem?_map, h1, hk]

theorem label_unknown_collision_witness :
    ("x".data[0]? = some 'x') ∧ ('x' ≠ '0') ∧ ('x' ≠ '1') ∧
    ((encode_line label_vocab 2 "x")[0]? = some 2 ∧
      encode_line label_vocab 2 "0" = [2]) :=
  ⟨by decide, by decide, by decide,
    label_unknown_collision "x" 0 'x' (by decide) (by decide) (by decide)⟩

/-- C7: `load_vocab` fails (Python: `token, freq = line.split()` raises,
modelled as `none`) exactly when some line of the vocabulary file does
not split into two whitespace-separated fields; on a well-formed file it
completes without error. -/
theorem load_vocab_error_iff (fileLines : List String) (ids_bias : Nat) :
    (load_vocab fileLines ids_bias).isSome ↔
      ∀ line ∈ fileLines, (splitFields (stripNewlines line)).length = 2 := by
  have h1 : (load_vocab fileLines ids_bias).isSome
      ↔ (parseVocabLines fileLines).isSome := by
    unfold load_vocab
    rcases parseVocabLines fileLines <;> simp
  rw [h1, parseVocabLines_isSome]
  simp only [parseVocabLine_isSome]

/-- Every sequence of a chunk is no longer than the chunk's `maxLen`. -/
lemma length_le_maxLen :
    ∀ (seqs : List (List Nat)) (i : Nat) (s : List Nat),
      seqs[i]? = some s → s.length ≤ maxLen seqs := by
  intro seqs
  induction seqs with
  | nil => intro i s hs; simp at hs
  | cons x xs ih =>
    intro i s hs
    have hmax : maxLen (x :: xs) = max x.length (maxLen xs) := rfl
    match i with
    | 0 =>
      simp at hs
      subst hs
      rw [hmax]
      exact le_max_left _ _
    | i + 1 =>
      simp at hs
      rw [hmax]
      exact le_trans (ih i s hs) (le_max_right _ _)

/-- Entry of the assembled time-major array at time `t`, sequence `i`:
the sequence's element when in range, the pad constant otherwise. -/
lemma tmb_entry (seqs : List (List Nat)) (t : Nat) (ht : t < maxLen seqs)
    (i : Nat) :
    ((time_major_batch seqs).1[t]?.bind (fun row => row[i]?))
      = (seqs[i]?).map (fun s => s.getD t PAD_ID) := by
  simp [time_major_batch, List.getElem?_map, List.getElem?_range, ht]

/-- C2: for every non-empty list of `N` variable-length sequences,
`time_major_batch` returns a time-major array whose first dimension is
the maximum true length, whose rows each have `N` entries, together with
the `N` true lengths; entries before a sequence's true length are its
values in order, entries at or after it are the padding constant. -/
theorem time_major_batch_spec (seqs : List (List Nat)) (_h : seqs ≠ []) :
    (time_major_batch seqs).1.length = maxLen seqs ∧
    (∀ row ∈ (time_major_batch seqs).1, row.length = seqs.length) ∧
    (time_major_batch seqs).2.length = seqs.length ∧
    (∀ (i : Nat), (time_major_batch seqs).2[i]?
      = (seqs[i]?).map List.length) ∧
    (∀ (i t : Nat) (s : List Nat), seqs[i]? = some s → t < s.length →
      ((time_major_batch seqs).1[t]?.bind (fun row => row[i]?)) = s[t]?) ∧
    (∀ (i t : Nat) (s : List Nat), seqs[i]? = some s → s.length ≤ t →
      t < maxLen seqs →
      ((time_major_batch seqs).1[t]?.bind (fun row => row[i]?))
        = some PAD_ID) := by
  refine ⟨by simp [time_major_batch], ?_, by simp [time_major_batch],
    ?_, ?_, ?_⟩
  · intro row hrow
    simp only [time_major_batch, List.mem_map, List.mem_range] at hrow
    obtain ⟨t, _, rfl⟩ := hrow
    simp
  · intro i
    simp [time_major_batch, List.getElem?_map]
  · intro i t s hs hts
    have htm : t < maxLen seqs :=
      lt_of_lt_of_le hts (length_le_maxLen seqs i s hs)
    rw [tmb_entry seqs t htm i, hs]
    simp only [Option.map_some']
    rw [List.getD_eq_getElem?_getD, List.getElem?_eq_getElem hts]
    simp
  · intro i t s hs hst htm
    rw [tmb_entry seqs t htm i, hs]
    simp only [Option.map_some']
    rw [List.getD_eq_getElem?_getD, List.getElem?_eq_none hst]
    simp

theorem time_major_batch_spec_witness :
    (([[1, 2, 3], [4, 5, 6, 7, 8]] : List (List Nat)) ≠ []) ∧
    ((time_major_batch [[1, 2, 3], [4, 5, 6, 7, 8]]).1.length
        = maxLen [[1, 2, 3], [4, 5, 6, 7, 8]] ∧
      (∀ row ∈ (time_major_batch [[1, 2, 3], [4, 5, 6, 7, 8]]).1,
        row.length = ([[1, 2, 3], [4, 5, 6, 7, 8]] : List (List Nat)).length) ∧
      (time_major_batch [[1, 2, 3], [4, 5, 6, 7, 8]]).2.length
        = ([[1, 2, 3], [4, 5, 6, 7, 8]] : List (List Nat)).length ∧
      (∀ (i : Nat), (time_major_batch [[1, 2, 3], [4, 5, 6, 7, 8]]).2[i]?
        = (([[1, 2, 3], [4, 5, 6, 7, 8]] : List (List Nat))[i]?).map
            List.length) ∧
      (∀ (i t : Nat) (s : List Nat),
        ([[1, 2, 3], [4, 5, 6, 7, 8]] : List (List Nat))[i]? = some s →
        t < s.length →
        ((time_major_batch [[1, 2, 3], [4, 5, 6, 7, 8]]).1[t]?.bind
          (fun row => row[i]?)) = s[t]?) ∧
      (∀ (i t : Nat) (s : List Nat),
        ([[1, 2, 3], [4, 5, 6, 7, 8]] : List (List Nat))[i]? = some s →
        s.length ≤ t → t < maxLen [[1, 2, 3], [4, 5, 6, 7, 8]] →
        ((time_major_batch [[1, 2, 3], [4, 5, 6, 7, 8]]).1[t]?.bind
          (fun row => row[i]?)) = some PAD_ID)) :=
  ⟨by decide, time_major_batch_spec [[1, 2, 3], [4, 5, 6, 7, 8]] (by decide)⟩

/-- C6: with three aligned input files of `a`, `b` and `c` lines, the
merged generator feeding the pipeline yields exactly `min(a, b, c)`
triples and, at each position, the triple of the three files' encoded
lines at that position — original line order, silent truncation to the
shortest file. -/
theorem labeled_rows_min_spec (tv lv : List (String × Nat))
    (srcLines tgtLines lblLines : List String) (i : Nat)
    (ls lt ll : String)
    (hs : srcLines[i]? = some ls) (ht : tgtLines[i]? = some lt)
    (hl : lblLines[i]? = some ll) :
    (labeled_rows tv lv srcLines tgtLines lblLines).length
      = min srcLines.length (min tgtLines.length lblLines.length) ∧
    (labeled_rows tv lv srcLines tgtLines lblLines)[i]?
      = some (encode_line tv 2 (stripNewlines ls),
          encode_line tv 2 (stripNewlines lt),
          encode_line lv 2 (stripNewlines ll)) := by
  constructor
  · simp [labeled_rows, merge_generators, fileStream, open_file_fn,
      List.length_zip]
  · rw [labeled_rows, merge_generators, List.getElem?_zip_eq_some]
    refine ⟨?_, ?_⟩
    · simp [fileStream, open_file_fn, List.getElem?_map, hs]
    · rw [List.getElem?_zip_eq_some]
      exact ⟨by simp [fileStream, open_file_fn, List.getElem?_map, ht],
        by simp [fileStream, open_file_fn, List.getElem?_map, hl]⟩

theorem labeled_rows_min_spec_witness :
    ((["ab", "cd"] : List String)[0]? = some "ab") ∧
    ((["ef"] : List String)[0]? = some "ef") ∧
    ((["0", "1"] : List String)[0]? = some "0") ∧
    ((labeled_rows [("a", 4)] label_vocab ["ab", "cd"] ["ef"]
          ["0", "1"]).length
        = min (["ab", "cd"] : List String).length
            (min (["ef"] : List String).length
              (["0", "1"] : List String).length) ∧
      (labeled_rows [("a", 4)] label_vocab ["ab", "cd"] ["ef"]
          ["0", "1"])[0]?
        = some (encode_line [("a", 4)] 2 (stripNewlines "ab"),
            encode_line [("a", 4)] 2 (stripNewlines "ef"),
            encode_line label_vocab 2 (stripNewlines "0"))) :=
  ⟨by decide, by decide, by decide,
    labeled_rows_min_spec [("a", 4)] label_vocab ["ab", "cd"] ["ef"]
      ["0", "1"] 0 "ab" "ef" "0" (by decide) (by decide) (by decide)⟩

/-- Each time-major row produced by `time_major_batch` has one entry per
sequence of the chunk. -/
lemma tmb_rows_length (seqs : List (List Nat)) :
    ∀ row ∈ (time_major_batch seqs).1, row.length = seqs.length := by
  intro row hrow
  simp only [time_major_batch, List.mem_map, List.mem_range] at hrow
  obtain ⟨t, _, rfl⟩ := hrow
  simp

/-- The length list produced by `time_major_batch` has one entry per
sequence of the chunk. -/
lemma tmb_lens_length (seqs : List (List Nat)) :
    (time_major_batch seqs).2.length = seqs.length := by
  simp [time_major_batch]

/-- All four components of a yielded batch tuple have batch dimension
`b`: each time-major row of the text and label arrays has `b` entries,
and both length lists have `b` entries. -/
def batchDims (b : Nat) (batch : Batch4) : Prop :=
  (∀ row ∈ batch.1, row.length = b) ∧ batch.2.1.length = b ∧
    (∀ row ∈ batch.2.2.1, row.length = b) ∧ batch.2.2.2.length = b

/-- The loop body when the text accumulator reaches the batch size:
both accumulators are cleared and one batch tuple is emitted. -/
lemma labeled_step_emit (b j : Nat) (t l : List (List Nat))
    (out : List Batch4) (r : List Nat × List Nat × List Nat)
    (h : b ≤ t.length + 1) :
    labeled_step b j (t, l, out) r = ([], [],
      out ++ [((time_major_batch (t ++ [joined_example r.1 j r.2.1])).1,
        (time_major_batch (t ++ [joined_example r.1 j r.2.1])).2,
        (time_major_batch (l ++ [r.2.2])).1,
        (time_major_batch (l ++ [r.2.2])).2)]) := by
  simp [labeled_step, h]

/-- The loop body below the batch size: the row is appended to both
accumulators and nothing is emitted. -/
lemma labeled_step_acc (b j : Nat) (t l : List (List Nat))
    (out : List Batch4) (r : List Nat × List Nat × List Nat)
    (h : ¬ b ≤ t.length + 1) :
    labeled_step b j (t, l, out) r
      = (t ++ [joined_example r.1 j r.2.1], l ++ [r.2.2], out) := by
  simp [labeled_step, h]

/-- Loop invariant of `labeled_data_generator`: starting from equal-sized
accumulators below the batch size, the fold emits exactly
`(accumulated + consumed) / b` further batches, and every emitted batch
has all four batch dimensions equal to `b`. -/
lemma emitted_foldl_spec (b j : Nat) (hb : 0 < b) :
    ∀ (rows : List (List Nat × List Nat × List Nat))
      (t l : List (List Nat)) (out : List Batch4),
      t.length = l.length → t.length < b →
      ((rows.foldl (labeled_step b j) (t, l, out)).2.2.length
          = out.length + (t.length + rows.length) / b) ∧
      (∀ batch ∈ (rows.foldl (labeled_step b j) (t, l, out)).2.2,
        batch ∈ out ∨ batchDims b batch) := by
  intro rows
  induction rows with
  | nil =>
    intro t l out htl htb
    exact ⟨by simp [Nat.div_eq_of_lt htb], fun batch hbatch => Or.inl hbatch⟩
  | cons r rs ih =>
    intro t l out htl htb
    simp only [List.foldl_cons]
    by_cases hemit : b ≤ t.length + 1
    · have hbeq : t.length + 1 = b := by omega
      rw [labeled_step_emit b j t l out r hemit]
      have ihap := ih [] [] (out ++
        [((time_major_batch (t ++ [joined_example r.1 j r.2.1])).1,
          (time_major_batch (t ++ [joined_example r.1 j r.2.1])).2,
          (time_major_batch (l ++ [r.2.2])).1,
          (time_major_batch (l ++ [r.2.2])).2)]) rfl hb
      constructor
      · rw [ihap.1]
        have hnum : t.length + (rs.length + 1) = rs.length + b := by omega
        simp only [List.length_append, List.length_singleton,
          List.length_cons, List.length_nil, Nat.zero_add]
        rw [hnum, Nat.add_div_right _ hb]
        omega
      · intro batch hbatch
        rcases ihap.2 batch hbatch with hmem | hdims
        · rw [List.mem_append] at hmem
          rcases hmem with hmem | hmem
          · exact Or.inl hmem
          · refine Or.inr ?_
            rw [List.mem_singleton] at hmem
            subst hmem
            have h1 : (t ++ [joined_example r.1 j r.2.1]).length = b := by
              simp only [List.length_append, List.length_singleton]
              omega
            have h2 : (l ++ [r.2.2]).length = b := by
              simp only [List.length_append, List.length_singleton]
              omega
            refine ⟨?_, ?_, ?_, ?_⟩
            · intro row hrow
              rw [tmb_rows_length _ row hrow, h1]
            · rw [tmb_lens_length, h1]
            · intro row hrow
              rw [tmb_rows_length _ row hrow, h2]
            · rw [tmb_lens_length, h2]
        · exact Or.inr hdims
    · rw [labeled_step_acc b j t l out r hemit]
      have ihap := ih (t ++ [joined_example r.1 j r.2.1]) (l ++ [r.2.2]) out
        (by simp [htl]) (by simp; omega)
      constructor
      · rw [ihap.1]
        simp only [List.length_append, List.length_singleton, List.length_cons,
          List.length_nil, Nat.zero_add]
        have hnum : t.length + 1 + rs.length = t.length + (rs.length + 1) := by
          omega
        rw [hnum]
      · exact ihap.2

/-- C1: with a positive batch size, the pipeline yields exactly one batch
tuple per `batch_size` consumed merged tuples — `⌊rows / batch_size⌋`
batches in total, so a trailing remainder of fewer than `batch_size`
tuples is never yielded — and all four components of every yielded batch
tuple have batch dimension `batch_size`. -/
theorem labeled_data_generator_batching
    (text_vocab label_vocab' : List (String × Nat))
    (sourceLines targetLines labelLines : List String)
    (join_id batch_size : Nat) (hb : 0 < batch_size) :
    (labeled_data_generator text_vocab label_vocab' sourceLines targetLines
        labelLines join_id batch_size).length
      = (labeled_rows text_vocab label_vocab' sourceLines targetLines
          labelLines).length / batch_size ∧
    ∀ batch ∈ labeled_data_generator text_vocab label_vocab' sourceLines
        targetLines labelLines join_id batch_size,
      batchDims batch_size batch := by
  have hmain := emitted_foldl_spec batch_size join_id hb
    (labeled_rows text_vocab label_vocab' sourceLines targetLines labelLines)
    [] [] [] rfl hb
  constructor
  · simpa using hmain.1
  · intro batch hbatch
    rcases hmain.2 batch hbatch with hmem | hdims
    · simp at hmem
    · exact hdims

theorem labeled_data_generator_batching_witness :
    0 < 2 ∧
    ((labeled_data_generator [("a", 4)] label_vocab ["a", "a", "a"]
        ["a", "a", "a"] ["0", "1", "0"] 3 2).length
      = (labeled_rows [("a", 4)] label_vocab ["a", "a", "a"] ["a", "a", "a"]
          ["0", "1", "0"]).length / 2 ∧
    ∀ batch ∈ labeled_data_generator [("a", 4)] label_vocab ["a", "a", "a"]
        ["a", "a", "a"] ["0", "1", "0"] 3 2,
      batchDims 2 batch) :=
  ⟨by decide, labeled_data_generator_batching [("a", 4)] label_vocab
    ["a", "a", "a"] ["a", "a", "a"] ["0", "1", "0"] 3 2 (by decide)⟩

/-- Index of the last occurrence of an element in a list, if any. -/
def lastIdxOf [DecidableEq α] : List α → α → Option Nat
  | [], _ => none
  | x :: xs, t =>
    match lastIdxOf xs t with
    | some k => some (k + 1)
    | none => if t = x then some 0 else none

/-- Shifting the start of an enumeration equals adding to each index. -/
lemma enumFrom_map_add {α : Type} :
    ∀ (l : List α) (n b : Nat),
      (l.enumFrom n).map (fun p => (p.1 + b, p.2)) = l.enumFrom (n + b) := by
  intro l
  induction l with
  | nil => intro n b; rfl
  | cons x xs ih =>
    intro n b
    simp only [List.enumFrom, List.map_cons, ih]
    have h : n + 1 + b = n + b + 1 := by omega
    rw [h]

/-- Looking up a key in an enumeration-keyed dict: the keys are the
pairwise-distinct ids `s, s+1, …`, so the entry for an in-range id is the
list element at its offset. -/
lemma dictGet_enumFrom {α : Type} :
    ∀ (l : List α) (s k : Nat),
      dictGet (l.enumFrom s) k = if s ≤ k then l[k - s]? else none := by
  intro l
  induction l with
  | nil =>
    intro s k
    simp [dictGet, List.enumFrom]
  | cons x xs ih =>
    intro s k
    simp only [List.enumFrom, dictGet, ih]
    by_cases h1 : s + 1 ≤ k
    · rw [if_pos h1]
      have hks : k - s = (k - (s + 1)) + 1 := by omega
      cases hx : xs[k - (s + 1)]? with
      | some v =>
        simp only [hx]
        rw [if_pos (by omega : s ≤ k), hks, List.getElem?_cons_succ, hx]
      | none =>
        simp only [hx]
        rw [if_neg (by omega : ¬ k = s), if_pos (by omega : s ≤ k), hks,
          List.getElem?_cons_succ, hx]
    · rw [if_neg h1]
      by_cases h2 : k = s
      · subst h2
        rw [if_pos rfl, if_pos (Nat.le_refl k), Nat.sub_self,
          List.getElem?_cons_zero]
      · rw [if_neg h2, if_neg (by omega : ¬ s ≤ k)]

/-- Looking up a token in the reversed enumeration dict finds the id of
its last occurrence: later duplicate entries shadow earlier ones. -/
lemma dictGet_t2i_enumFrom {α : Type} [DecidableEq α] :
    ∀ (l : List α) (s : Nat) (t : α),
      dictGet ((l.enumFrom s).map (fun p => (p.2, p.1))) t
        = (lastIdxOf l t).map (fun k => s + k) := by
  intro l
  induction l with
  | nil => intro s t; rfl
  | cons x xs ih =>
    intro s t
    simp only [List.enumFrom, List.map_cons, dictGet, lastIdxOf, ih]
    cases h : lastIdxOf xs t with
    | some k =>
      simp only [h, Option.map_some']
      have hsk : s + 1 + k = s + (k + 1) := by omega
      rw [hsk]
    | none =>
      simp only [h, Option.map_none']
      by_cases ht : t = x <;> simp [ht]

/-- `id2token` is the enumeration of the tokens starting at the bias. -/
lemma i2tList_eq (tokens : List String) (bias : Nat) :
    i2tList tokens bias = tokens.enumFrom bias := by
  unfold i2tList
  have h := enumFrom_map_add tokens 0 bias
  simpa [List.enum] using h

/-- `id2token` lookup: in-range ids map to the token at their offset. -/
lemma dictGet_i2tList (tokens : List String) (bias k : Nat) :
    dictGet (i2tList tokens bias) k
      = if bias ≤ k then tokens[k - bias]? else none := by
  rw [i2tList_eq, dictGet_enumFrom]

/-- `token2id` is the reversed enumeration of the tokens. -/
lemma t2iList_eq (tokens : List String) (bias : Nat) :
    t2iList tokens bias
      = (tokens.enumFrom bias).map (fun p => (p.2, p.1)) := by
  unfold t2iList
  have h : (tokens.enumFrom 0).map (fun p => (p.1 + bias, p.2))
      = tokens.enumFrom bias := by
    rw [enumFrom_map_add]
    simp
  rw [← h, List.map_map]
  rfl

/-- `token2id` lookup resolves a token to the id of its last occurrence. -/
lemma dictGet_t2iList (tokens : List String) (bias : Nat) (t : String) :
    dictGet (t2iList tokens bias) t
      = (lastIdxOf tokens t).map (fun k => bias + k) := by
  rw [t2iList_eq, dictGet_t2i_enumFrom]

/-- The last-occurrence index points at the element. -/
lemma lastIdxOf_getElem {α : Type} [DecidableEq α] :
    ∀ (l : List α) (t : α) (k : Nat), lastIdxOf l t = some k →
      l[k]? = some t := by
  intro l
  induction l with
  | nil => intro t k h; simp [lastIdxOf] at h
  | cons x xs ih =>
    intro t k h
    simp only [lastIdxOf] at h
    cases hx : lastIdxOf xs t with
    | some k' =>
      rw [hx] at h
      simp only [Option.some.injEq] at h
      subst h
      rw [List.getElem?_cons_succ]
      exact ih t k' hx
    | none =>
      rw [hx] at h
      by_cases ht : t = x
      · rw [if_pos ht] at h
        simp only [Option.some.injEq] at h
        subst h
        rw [List.getElem?_cons_zero, ht]
      · rw [if_neg ht] at h
        exact absurd h (by simp)

/-- When no occurrence exists, no position holds the element. -/
lemma lastIdxOf_eq_none {α : Type} [DecidableEq α] :
    ∀ (l : List α) (t : α), lastIdxOf l t = none →
      ∀ m : Nat, l[m]? ≠ some t := by
  intro l
  induction l with
  | nil => intro t _ m; simp
  | cons x xs ih =>
    intro t h m
    simp only [lastIdxOf] at h
    cases hx : lastIdxOf xs t with
    | some k' => rw [hx] at h; exact absurd h (by simp)
    | none =>
      rw [hx] at h
      by_cases ht : t = x
      · rw [if_pos ht] at h; exact absurd h (by simp)
      · match m with
        | 0 =>
          rw [List.getElem?_cons_zero]
          intro he
          simp only [Option.some.injEq] at he
          exact ht he.symm
        | m + 1 =>
          rw [List.getElem?_cons_succ]
          exact ih t hx m

/-- No occurrence lies strictly after the last-occurrence index. -/
lemma lastIdxOf_last {α : Type} [DecidableEq α] :
    ∀ (l : List α) (t : α) (k : Nat), lastIdxOf l t = some k →
      ∀ m : Nat, k < m → l[m]? ≠ some t := by
  intro l
  induction l with
  | nil => intro t k h; simp [lastIdxOf] at h
  | cons x xs ih =>
    intro t k h m hkm
    simp only [lastIdxOf] at h
    cases hx : lastIdxOf xs t with
    | some k' =>
      rw [hx] at h
      simp only [Option.some.injEq] at h
      subst h
      match m, hkm with
      | m + 1, hkm =>
        rw [List.getElem?_cons_succ]
        exact ih t k' hx m (by omega)
    | none =>
      rw [hx] at h
      by_cases ht : t = x
      · rw [if_pos ht] at h
        simp only [Option.some.injEq] at h
        subst h
        match m, hkm with
        | m + 1, _ =>
          rw [List.getElem?_cons_succ]
          exact lastIdxOf_eq_none xs t hx m
      · rw [if_neg ht] at h
        exact absurd h (by simp)

/-- An absent element has no last occurrence. -/
lemma lastIdxOf_of_not_mem {α : Type} [DecidableEq α] :
    ∀ (l : List α) (t : α), t ∉ l → lastIdxOf l t = none := by
  intro l
  induction l with
  | nil => intro t _; rfl
  | cons x xs ih =>
    intro t ht
    simp only [List.mem_cons, not_or] at ht
    simp only [lastIdxOf]
    rw [ih t ht.2]
    simp [ht.1]

/-- On a duplicate-free list, the last occurrence is the occurrence. -/
lemma lastIdxOf_of_nodup {α : Type} [DecidableEq α] :
    ∀ (l : List α), l.Nodup → ∀ (i : Nat) (t : α), l[i]? = some t →
      lastIdxOf l t = some i := by
  intro l
  induction l with
  | nil => intro _ i t h; simp at h
  | cons x xs ih =>
    intro hnd i t h
    simp only [List.nodup_cons] at hnd
    match i with
    | 0 =>
      rw [List.getElem?_cons_zero] at h
      simp only [Option.some.injEq] at h
      subst h
      simp only [lastIdxOf]
      rw [lastIdxOf_of_not_mem xs x hnd.1]
      simp
    | i + 1 =>
      rw [List.getElem?_cons_succ] at h
      simp only [lastIdxOf, ih hnd.2 i t h]

/-- C4: for every vocabulary file whose token lines are pairwise
distinct and every bias `B`, `load_vocab` returns `token2id` and
`id2token` that are exact inverses over the id range `[B, B + K)`, with
ids assigned contiguously in file order starting at `B`. -/
theorem load_vocab_inverse (fileLines : List String) (ids_bias : Nat)
    (tokens : List String)
    (htok : parseVocabLines fileLines = some tokens)
    (hnodup : tokens.Nodup) :
    load_vocab fileLines ids_bias
      = some (t2iList tokens ids_bias, i2tList tokens ids_bias) ∧
    (∀ (i : Nat) (t : String), tokens[i]? = some t →
      dictGet (i2tList tokens ids_bias) (ids_bias + i) = some t ∧
      dictGet (t2iList tokens ids_bias) t = some (ids_bias + i)) ∧
    (∀ (t : String) (k : Nat), dictGet (t2iList tokens ids_bias) t = some k →
      ids_bias ≤ k ∧ k < ids_bias + tokens.length ∧
      dictGet (i2tList tokens ids_bias) k = some t) ∧
    (∀ k : Nat, (dictGet (i2tList tokens ids_bias) k).isSome ↔
      ids_bias ≤ k ∧ k < ids_bias + tokens.length) := by
  refine ⟨by unfold load_vocab; rw [htok], ?_, ?_, ?_⟩
  · intro i t hit
    constructor
    · rw [dictGet_i2tList, if_pos (Nat.le_add_right _ _),
        Nat.add_sub_cancel_left]
      exact hit
    · rw [dictGet_t2iList, lastIdxOf_of_nodup tokens hnodup i t hit]
      rfl
  · intro t k hk
    rw [dictGet_t2iList] at hk
    cases hx : lastIdxOf tokens t with
    | none => rw [hx] at hk; exact absurd hk (by simp)
    | some j =>
      rw [hx] at hk
      simp only [Option.map_some', Option.some.injEq] at hk
      subst hk
      have hj := lastIdxOf_getElem tokens t j hx
      have hjlen : j < tokens.length := by
        by_contra hge
        rw [List.getElem?_eq_none (by omega)] at hj
        exact absurd hj (by simp)
      refine ⟨Nat.le_add_right _ _, by omega, ?_⟩
      rw [dictGet_i2tList, if_pos (Nat.le_add_right _ _),
        Nat.add_sub_cancel_left]
      exact hj
  · intro k
    rw [dictGet_i2tList]
    by_cases hbk : ids_bias ≤ k
    · rw [if_pos hbk]
      constructor
      · intro hsome
        have hlt : k - ids_bias < tokens.length := by
          by_contra hge
          rw [List.getElem?_eq_none (by omega)] at hsome
          exact absurd hsome (by simp)
        exact ⟨hbk, by omega⟩
      · intro hrange
        rw [List.getElem?_eq_getElem (by omega)]
        rfl
    · rw [if_neg hbk]
      simp [hbk]

theorem load_vocab_inverse_witness :
    (parseVocabLines ["the 10", "cat 5"] = some ["the", "cat"]) ∧
    ((["the", "cat"] : List String).Nodup) ∧
    (load_vocab ["the 10", "cat 5"] 4
        = some (t2iList ["the", "cat"] 4, i2tList ["the", "cat"] 4) ∧
      (∀ (i : Nat) (t : String),
        (["the", "cat"] : List String)[i]? = some t →
        dictGet (i2tList ["the", "cat"] 4) (4 + i) = some t ∧
        dictGet (t2iList ["the", "cat"] 4) t = some (4 + i)) ∧
      (∀ (t : String) (k : Nat),
        dictGet (t2iList ["the", "cat"] 4) t = some k →
        4 ≤ k ∧ k < 4 + (["the", "cat"] : List String).length ∧
        dictGet (i2tList ["the", "cat"] 4) k = some t) ∧
      (∀ k : Nat, (dictGet (i2tList ["the", "cat"] 4) k).isSome ↔
        4 ≤ k ∧ k < 4 + (["the", "cat"] : List String).length)) :=
  ⟨by decide, by decide, load_vocab_inverse ["the 10", "cat 5"] 4
    ["the", "cat"] (by decide) (by decide)⟩

/-- C8 counterexample: on the duplicate-token file `["a 1", "a 2"]` with
bias 0, nothing in the id→token map is overwritten — it keeps distinct
entries for both ids 0 and 1, the earlier id 0 still mapping to `"a"`.
The overwrite the claim describes happens in the token→id map instead,
where `"a"` resolves to the later id 1. -/
theorem load_vocab_dup_counterexample :
    load_vocab ["a 1", "a 2"] 0
      = some ([("a", 0), ("a", 1)], [(0, "a"), (1, "a")]) ∧
    dictGet [(0, "a"), (1, "a")] 0 = some "a" ∧
    dictGet [(0, "a"), (1, "a")] 1 = some "a" ∧
    dictGet [("a", 0), ("a", 1)] "a" = some 1 := by decide

/-- C8 (amended): `load_vocab` performs no deduplication check; with
duplicate token lines the later line's id silently overwrites the
earlier one in the token→id map (the resolved id is the last occurrence
of the token), while the id→token map retains an entry for every id. -/
theorem load_vocab_dup_amended (fileLines : List String) (ids_bias : Nat)
    (tokens : List String)
    (htok : parseVocabLines fileLines = some tokens) :
    load_vocab fileLines ids_bias
      = some (t2iList tokens ids_bias, i2tList tokens ids_bias) ∧
    (∀ (i : Nat) (t : String), tokens[i]? = some t →
      dictGet (i2tList tokens ids_bias) (ids_bias + i) = some t) ∧
    (∀ (t : String) (k : Nat), dictGet (t2iList tokens ids_bias) t = some k →
      ∃ j : Nat, k = ids_bias + j ∧ tokens[j]? = some t ∧
        ∀ m : Nat, j < m → tokens[m]? ≠ some t) := by
  refine ⟨by unfold load_vocab; rw [htok], ?_, ?_⟩
  · intro i t hit
    rw [dictGet_i2tList, if_pos (Nat.le_add_right _ _),
      Nat.add_sub_cancel_left]
    exact hit
  · intro t k hk
    rw [dictGet_t2iList] at hk
    cases hx : lastIdxOf tokens t with
    | none => rw [hx] at hk; exact absurd hk (by simp)
    | some j =>
      rw [hx] at hk
      simp only [Option.map_some', Option.some.injEq] at hk
      exact ⟨j, hk.symm, lastIdxOf_getElem tokens t j hx,
        lastIdxOf_last tokens t j hx⟩

theorem load_vocab_dup_amended_witness :
    (parseVocabLines ["a 1", "a 2"] = some ["a", "a"]) ∧
    (load_vocab ["a 1", "a 2"] 0
        = some (t2iList ["a", "a"] 0, i2tList ["a", "a"] 0) ∧
      (∀ (i : Nat) (t : String), (["a", "a"] : List String)[i]? = some t →
        dictGet (i2tList ["a", "a"] 0) (0 + i) = some t) ∧
      (∀ (t : String) (k : Nat), dictGet (t2iList ["a", "a"] 0) t = some k →
        ∃ j : Nat, k = 0 + j ∧ (["a", "a"] : List String)[j]? = some t ∧
          ∀ m : Nat, j < m → (["a", "a"] : List String)[m]? ≠ some t)) :=
  ⟨by decide, load_vocab_dup_amended ["a 1", "a 2"] 0 ["a", "a"] (by decide)⟩
